import Mathlib

/-!
# A shallow embedding of the File System Navigator core (src/navigator.cpp)

The C++ program keeps an owned tree of `Node` objects (each a FILE or a
DIRECTORY; directories own a `std::map<std::string, unique_ptr<Node>>` of
children, sorted ascending by key) plus a raw `currentDirectory` pointer.
Here the tree is an inductive `Node`; the cursor is represented by the list
of child keys leading from the root to the current directory (`cwd`), which
is the purely functional counterpart of the C++ node pointer: parent
traversal (`..`) becomes `List.dropLast`, and mutation through the cursor
becomes an update of the tree at the path `cwd`.

Files in the C++ code do carry an (always empty, never touched) children
map: every insertion goes through `currentDirectory`, which is only ever a
directory, and both `navigateToPath` and `find_helper` test `type` before
touching `children`; so the `file` constructor here carries no children.

C++ `std::string` ordering (`std::map`'s `std::less`, byte-wise
lexicographic) agrees with Lean's `String` order (code-point lexicographic)
because UTF-8 byte order coincides with code-point order.
-/

/-- The C++ `enum class NodeType { FILE, DIRECTORY }`. -/
inductive NodeType where
  | file
  | directory
deriving DecidableEq, Repr

/-- One file-system entry.  `dir` carries the children association list,
kept in ascending key order exactly as `std::map` iteration yields it. -/
inductive Node where
  | file (name : String)
  | dir (name : String) (children : List (String × Node))

namespace Node

/-- The `name` field of a node. -/
def name : Node → String
  | .file n => n
  | .dir n _ => n

/-- The `type` field of a node. -/
def type : Node → NodeType
  | .file _ => .file
  | .dir _ _ => .directory

/-- The test `type == NodeType::DIRECTORY`. -/
def isDir : Node → Bool
  | .file _ => false
  | .dir _ _ => true

end Node

/-- Lookup in a children map: `children.count(name)` / `children[name]`.
`std::map` key equivalence for strings is plain string equality. -/
def lookupChild (key : String) : List (String × Node) → Option Node
  | [] => none
  | kv :: rest => if kv.1 = key then some kv.2 else lookupChild key rest

/-- The `std::map` insert-or-assign (`children[name] = node`), keeping the
ascending key order that `std::map` maintains. -/
def insertChild (key : String) (c : Node) : List (String × Node) → List (String × Node)
  | [] => [(key, c)]
  | kv :: rest =>
    if key < kv.1 then (key, c) :: kv :: rest
    else if key = kv.1 then (key, c) :: rest
    else kv :: insertChild key c rest

/-- Follow a list of child keys down from a node (the functional reading of
a C++ node pointer: the node a `cwd` path refers to). -/
def nodeAt : Node → List String → Option Node
  | n, [] => some n
  | .dir _ ch, s :: rest =>
    match lookupChild s ch with
    | some c => nodeAt c rest
    | none => none
  | .file _, _ :: _ => none

/-- Embeds `FileSystem::splitPath` character by character: `std::getline` on `/`
pushing only non-empty parts, i.e. the maximal non-empty runs of
non-separator characters.  `acc` holds the current run, reversed. -/
def splitPathCore : List Char → List Char → List String
  | [], acc => if acc.isEmpty then [] else [⟨acc.reverse⟩]
  | c :: cs, acc =>
    if c = '/' then
      (if acc.isEmpty then [] else [(⟨acc.reverse⟩ : String)]) ++ splitPathCore cs []
    else splitPathCore cs (c :: acc)

/-- Embeds `FileSystem::splitPath`. -/
def splitPath (path : String) : List String :=
  splitPathCore path.data []

/-- Embeds `FileSystem::isValidName`: `name.find('/') == std::string::npos`. -/
def isValidName (name : String) : Bool :=
  !(name.data.contains '/')

/-- Embeds `FileSystem::navigateToPath`, with the current node represented by its
path from the root.  `..` moves to the parent when one exists (`dropLast`
is the identity on `[]`, matching the `parent != nullptr` clamp at root),
`.` is skipped, and any other segment requires the current node to be a
directory holding a directory child of that exact name. -/
def navigate (root : Node) : List String → List String → Option (List String)
  | [], cur => some cur
  | part :: rest, cur =>
    if part = ".." then navigate root rest cur.dropLast
    else if part = "." then navigate root rest cur
    else
      match nodeAt root cur with
      | some (.dir _ ch) =>
        match lookupChild part ch with
        | some child => if child.isDir then navigate root rest (cur ++ [part]) else none
        | none => none
      | _ => none

/-- Embeds `FileSystem::getPath` on the reversed path (deepest name first), the
shape of the C++ recursion up the parent chain: root is `"/"`, a child of
root is `"/" + name`, otherwise `getPath(parent) + "/" + name`. -/
def getPathRev : List String → String
  | [] => "/"
  | [nm] => "/" ++ nm
  | nm :: b :: t => getPathRev (b :: t) ++ "/" ++ nm

/-- Embeds `FileSystem::getPath` of the node at path `p` from the root. -/
def getPath (p : List String) : String :=
  getPathRev p.reverse

/-- The `FileSystem` state: the owned root tree and the cursor, as the key
path from root to `currentDirectory`. -/
structure FS where
  root : Node
  cwd : List String

/-- The `FileSystem()` constructor: a root directory named `/`, cursor at
root. -/
def initFS : FS :=
  FS.mk (Node.dir "/" []) []

namespace FS

/-- The children map of `currentDirectory` (the cursor always denotes a
live directory in reachable states; other cases are vacuous). -/
def childrenAt (fs : FS) : List (String × Node) :=
  match nodeAt fs.root fs.cwd with
  | some (.dir _ ch) => ch
  | _ => []

/-- Embeds `FileSystem::nameExists`: `currentDirectory->children.count(name) > 0`. -/
def nameExists (fs : FS) (name : String) : Bool :=
  (lookupChild name fs.childrenAt).isSome

end FS

/-- Rewrite the children map of the node at path `p` (the functional
counterpart of mutating `currentDirectory->children` through the cursor
pointer). -/
def updateAt : List String → (List (String × Node) → List (String × Node)) → Node → Node
  | [], f, .dir nm ch => .dir nm (f ch)
  | [], _, n => n
  | s :: rest, f, .dir nm ch =>
    .dir nm (ch.map fun kv => if kv.1 = s then (kv.1, updateAt rest f kv.2) else kv)
  | _ :: _, _, n => n

/-- The errors the three fallible operations report (printed messages in
the C++ CLI, surfaced as result values here). -/
inductive FsError where
  | invalidName
  | alreadyExists
  | invalidPath
deriving DecidableEq, Repr

namespace FS

/-- Embeds `FileSystem::mkdir`: reject a name containing `/`, reject an existing
name, otherwise insert a fresh directory child under the cursor.  The
state component is the post-state (unchanged whenever an error is
reported, as the C++ early-returns without touching the tree). -/
def mkdir (fs : FS) (name : String) : FS × Option FsError :=
  if ¬ isValidName name then (fs, some .invalidName)
  else if fs.nameExists name then (fs, some .alreadyExists)
  else (FS.mk (updateAt fs.cwd (insertChild name (Node.dir name [])) fs.root) fs.cwd, none)

/-- Embeds `FileSystem::touch`: same checks as `mkdir`, inserting a FILE node. -/
def touch (fs : FS) (name : String) : FS × Option FsError :=
  if ¬ isValidName name then (fs, some .invalidName)
  else if fs.nameExists name then (fs, some .alreadyExists)
  else (FS.mk (updateAt fs.cwd (insertChild name (Node.file name)) fs.root) fs.cwd, none)

/-- Embeds `FileSystem::cd`: the path `"/"` resets to root unconditionally; otherwise the
start node is root exactly when the first character is `/` (on the empty
string `path[0]` reads the terminating NUL in C++, which is not `/`, hence
`head? = some '/'` is the faithful test), and `navigateToPath` resolves
the split segments; only success moves the cursor. -/
def cd (fs : FS) (path : String) : FS × Option FsError :=
  if path = "/" then (FS.mk fs.root [], none)
  else
    match navigate fs.root (splitPath path)
        (if path.data.head? = some '/' then [] else fs.cwd) with
    | some p => (FS.mk fs.root p, none)
    | none => (fs, some .invalidPath)

/-- Embeds `FileSystem::ls`: the cursor's children in map (ascending key) order,
as (name, kind) pairs — the C++ prints the key and a `/` suffix exactly
when the child is a directory. -/
def ls (fs : FS) : List (String × NodeType) :=
  fs.childrenAt.map fun kv => (kv.1, kv.2.type)

/-- Embeds `FileSystem::pwd`, the spec's `currentPath()`: `getPath(currentDirectory)`. -/
def pwd (fs : FS) : String :=
  getPath fs.cwd

end FS

mutual
/-- Embeds `FileSystem::find_helper`: record this node's absolute path when its
name matches, then (for directories) recurse over the children in map
order.  `p` is the path of `n` from the root, extended with each child's
`name` field exactly as the C++ `getPath` walks `name` fields up the
parent chain. -/
def findHelper (target : String) (n : Node) (p : List String) : List String :=
  (if n.name = target then [getPath p] else []) ++
    match n with
    | .dir _ ch => childrenFind target ch p
    | .file _ => []

/-- The `find_helper` loop over a children list. -/
def childrenFind (target : String) (ch : List (String × Node)) (p : List String) : List String :=
  match ch with
  | [] => []
  | kv :: rest => findHelper target kv.2 (p ++ [kv.2.name]) ++ childrenFind target rest p
end

/-- Embeds `FileSystem::find`: search from the root (never from the cursor). -/
def FS.find (fs : FS) (target : String) : List String :=
  findHelper target fs.root []

/-! ## Specification-side definitions

These follow the wording of the specification (not the C++ control flow);
the theorems below relate them to the embedded operations. -/

/-- Modelled from the spec: an absolute path is "built by concatenating the
separator and each node's name from root down to a target node". -/
def joinSlash (p : List String) : String :=
  p.foldl (fun acc s => acc ++ "/" ++ s) ""

mutual
/-- Modelled from the spec: the depth-first pre-order enumeration of all
nodes below (and including) `n`, paired with their paths, visiting a node
first and then its children in ascending key order. -/
def preorder (n : Node) (p : List String) : List (Node × List String) :=
  (n, p) ::
    match n with
    | .dir _ ch => preorderChildren ch p
    | .file _ => []

/-- The pre-order enumeration of a children list. -/
def preorderChildren (ch : List (String × Node)) (p : List String) : List (Node × List String) :=
  match ch with
  | [] => []
  | kv :: rest => preorder kv.2 (p ++ [kv.2.name]) ++ preorderChildren rest p
end

/-- Modelled from the spec: `find` returns the absolute paths of exactly
the pre-order-visited nodes whose name equals the argument. -/
def findSpec (fs : FS) (target : String) : List String :=
  ((preorder fs.root []).filter fun x => x.1.name == target).map fun x => getPath x.2

/-! ## Invariants and reachable states -/

/-- The segments a successful `navigateToPath` can ever append to the
cursor path: non-empty (splitPath drops empty parts), not `.` or `..`
(those are handled without descending), and free of the separator. -/
def validSeg (s : String) : Prop :=
  s ≠ "" ∧ s ≠ "." ∧ s ≠ ".." ∧ isValidName s = true

/-- Structural well-formedness of the tree, exactly what `std::map` and
the create operations maintain: children keys strictly ascending, every
child stored under its own `name`, every name free of the separator. -/
inductive TreeInv : Node → Prop where
  | file (nm : String) : TreeInv (.file nm)
  | dir (nm : String) (ch : List (String × Node))
      (sorted : (ch.map Prod.fst).Pairwise (· < ·))
      (named : ∀ kv ∈ ch, (kv : String × Node).2.name = kv.1)
      (valid : ∀ kv ∈ ch, isValidName (kv : String × Node).1 = true)
      (sub : ∀ kv ∈ ch, TreeInv (kv : String × Node).2) :
      TreeInv (.dir nm ch)

/-- The full state invariant: well-formed tree, root a directory named `/`,
cursor denoting a live directory, cursor path made of valid segments. -/
def FsInv (fs : FS) : Prop :=
  TreeInv fs.root ∧
  (∃ rch, fs.root = Node.dir "/" rch) ∧
  (∃ nm ch, nodeAt fs.root fs.cwd = some (Node.dir nm ch)) ∧
  (∀ s ∈ fs.cwd, validSeg s)

/-- The states reachable from the fresh file system through the public
operations (the read-only operations `ls`, `pwd`, `find` do not change the
state; the state-returning ones are closed over both success and failure,
since the post-state is returned in either case). -/
inductive Reachable : FS → Prop where
  | init : Reachable initFS
  | mkdir (fs : FS) (name : String) : Reachable fs → Reachable (fs.mkdir name).1
  | touch (fs : FS) (name : String) : Reachable fs → Reachable (fs.touch name).1
  | cd (fs : FS) (path : String) : Reachable fs → Reachable (fs.cd path).1

/-- Character-level shape of a non-root absolute path: a `/` followed by
the segment's characters, for each segment in order (proof helper). -/
def getPathChars : List String → List Char
  | [] => []
  | s :: rest => '/' :: (s.data ++ getPathChars rest)

/-! ## Helper lemmas: strings, children maps -/

theorem isValidName_iff {s : String} : isValidName s = true ↔ '/' ∉ s.data := by
  simp [isValidName]

theorem data_inj {a b : String} (h : a.data = b.data) : a = b :=
  String.toList_inj.mp h

theorem data_ne_nil {s : String} (h : s ≠ "") : s.data ≠ [] := by
  intro hd
  exact h (data_inj (hd.trans rfl))

theorem lookupChild_mem {k : String} {c : Node} :
    ∀ {ch : List (String × Node)}, lookupChild k ch = some c → (k, c) ∈ ch := by
  intro ch h
  induction ch with
  | nil => simp [lookupChild] at h
  | cons kv rest ih =>
    by_cases hk : kv.1 = k
    · rw [lookupChild, if_pos hk] at h
      obtain rfl : kv.2 = c := by injection h
      subst hk
      exact List.mem_cons_self _ _
    · rw [lookupChild, if_neg hk] at h
      exact List.mem_cons_of_mem _ (ih h)

theorem lookupChild_insert_self (k : String) (c : Node) :
    ∀ ch, lookupChild k (insertChild k c ch) = some c := by
  intro ch
  induction ch with
  | nil => simp [insertChild, lookupChild]
  | cons kv rest ih =>
    by_cases h1 : k < kv.1
    · rw [insertChild, if_pos h1]
      simp [lookupChild]
    · by_cases h2 : k = kv.1
      · rw [insertChild, if_neg h1, if_pos h2]
        simp [lookupChild]
      · have h3 : kv.1 ≠ k := fun e => h2 e.symm
        rw [insertChild, if_neg h1, if_neg h2, lookupChild, if_neg h3]
        exact ih

theorem mem_insertChild {kv' : String × Node} {k : String} {c : Node} :
    ∀ {ch : List (String × Node)}, kv' ∈ insertChild k c ch → kv' = (k, c) ∨ kv' ∈ ch := by
  intro ch h
  induction ch with
  | nil =>
    simp only [insertChild] at h
    exact Or.inl (by simpa using h)
  | cons kv rest ih =>
    rw [insertChild] at h
    by_cases h1 : k < kv.1
    · rw [if_pos h1] at h
      rcases List.mem_cons.mp h with h | h
      · exact Or.inl h
      · exact Or.inr h
    · by_cases h2 : k = kv.1
      · rw [if_neg h1, if_pos h2] at h
        rcases List.mem_cons.mp h with h | h
        · exact Or.inl h
        · exact Or.inr (List.mem_cons_of_mem _ h)
      · rw [if_neg h1, if_neg h2] at h
        rcases List.mem_cons.mp h with h | h
        · exact Or.inr (h ▸ List.mem_cons_self _ _)
        · rcases ih h with h' | h'
          · exact Or.inl h'
          · exact Or.inr (List.mem_cons_of_mem _ h')

theorem mem_keys_insertChild {x k : String} {c : Node} {ch : List (String × Node)}
    (h : x ∈ (insertChild k c ch).map Prod.fst) : x = k ∨ x ∈ ch.map Prod.fst := by
  rcases List.mem_map.mp h with ⟨kv', hmem, rfl⟩
  rcases mem_insertChild hmem with h' | h'
  · exact Or.inl (by rw [h'])
  · exact Or.inr (List.mem_map.mpr ⟨kv', h', rfl⟩)

theorem pairwise_insertChild {k : String} {c : Node} :
    ∀ {ch : List (String × Node)}, ((ch.map Prod.fst).Pairwise (· < ·)) →
      (((insertChild k c ch).map Prod.fst).Pairwise (· < ·)) := by
  intro ch h
  induction ch with
  | nil => simp [insertChild]
  | cons kv rest ih =>
    simp only [List.map_cons, List.pairwise_cons] at h
    obtain ⟨hlt, hrest⟩ := h
    rw [insertChild]
    by_cases h1 : k < kv.1
    · rw [if_pos h1]
      simp only [List.map_cons, List.pairwise_cons]
      refine ⟨?_, ?_, hrest⟩
      · intro x hx
        rcases List.mem_cons.mp hx with rfl | hx
        · exact h1
        · exact lt_trans h1 (hlt x hx)
      · exact hlt
    · by_cases h2 : k = kv.1
      · rw [if_neg h1, if_pos h2]
        simp only [List.map_cons, List.pairwise_cons]
        exact ⟨fun x hx => h2 ▸ hlt x hx, hrest⟩
      · have h3 : kv.1 < k := by
          rcases lt_trichotomy k kv.1 with h' | h' | h'
          · exact absurd h' h1
          · exact absurd h' h2
          · exact h'
        rw [if_neg h1, if_neg h2]
        simp only [List.map_cons, List.pairwise_cons]
        refine ⟨?_, ih hrest⟩
        intro x hx
        rcases mem_keys_insertChild hx with rfl | hx
        · exact h3
        · exact hlt x hx

/-! ## Helper lemmas: path splitting and printing -/

theorem splitPathCore_no_sep :
    ∀ (cs : List Char), '/' ∉ cs → ∀ acc,
      splitPathCore cs acc =
        if acc.reverse ++ cs = [] then [] else [⟨acc.reverse ++ cs⟩] := by
  intro cs
  induction cs with
  | nil =>
    intro _ acc
    cases acc with
    | nil => simp [splitPathCore]
    | cons a t => simp [splitPathCore]
  | cons c cs ih =>
    intro hmem acc
    have hc : c ≠ '/' := fun e => hmem (e ▸ List.mem_cons_self c cs)
    have hcs : '/' ∉ cs := fun h => hmem (List.mem_cons_of_mem _ h)
    rw [splitPathCore, if_neg hc, ih hcs (c :: acc)]
    simp [List.append_assoc]

theorem splitPathCore_flush :
    ∀ (cs₁ : List Char), '/' ∉ cs₁ → ∀ acc cs₂,
      splitPathCore (cs₁ ++ '/' :: cs₂) acc =
        if acc.reverse ++ cs₁ = [] then splitPathCore cs₂ []
        else (⟨acc.reverse ++ cs₁⟩ : String) :: splitPathCore cs₂ [] := by
  intro cs₁
  induction cs₁ with
  | nil =>
    intro _ acc cs₂
    cases acc with
    | nil => simp [splitPathCore]
    | cons a t => simp [splitPathCore]
  | cons c cs ih =>
    intro hmem acc cs₂
    have hc : c ≠ '/' := fun e => hmem (e ▸ List.mem_cons_self c cs)
    have hcs : '/' ∉ cs := fun h => hmem (List.mem_cons_of_mem _ h)
    rw [List.cons_append, splitPathCore, if_neg hc, ih hcs (c :: acc)]
    simp [List.append_assoc]

theorem getPathChars_append :
    ∀ p q : List String, getPathChars (p ++ q) = getPathChars p ++ getPathChars q := by
  intro p q
  induction p with
  | nil => simp [getPathChars]
  | cons a rest ih => simp [getPathChars, ih]

theorem getPathRev_data :
    ∀ r : List String, r ≠ [] → (getPathRev r).data = getPathChars r.reverse := by
  intro r
  induction r with
  | nil => intro h; exact absurd rfl h
  | cons nm rest ih =>
    intro _
    cases rest with
    | nil => simp [getPathRev, getPathChars, String.data_append]
    | cons b t =>
      rw [getPathRev, List.reverse_cons, getPathChars_append,
        ← ih (List.cons_ne_nil b t)]
      simp [getPathChars, String.data_append]

theorem getPath_data {p : List String} (h : p ≠ []) : (getPath p).data = getPathChars p := by
  have := getPathRev_data p.reverse (by simpa using h)
  rwa [List.reverse_reverse] at this

theorem splitPathCore_getPathChars :
    ∀ p : List String, (∀ s ∈ p, s.data ≠ [] ∧ '/' ∉ s.data) →
      splitPathCore (getPathChars p) [] = p := by
  intro p
  induction p with
  | nil => intro _; rfl
  | cons a rest ih =>
    intro h
    obtain ⟨hne, hns⟩ := h a (List.mem_cons_self a rest)
    have hrest := fun s hs => h s (List.mem_cons_of_mem a hs)
    have step : ∀ xs : List Char, splitPathCore ('/' :: xs) [] = splitPathCore xs [] := by
      intro xs; simp [splitPathCore]
    rw [getPathChars, step]
    cases rest with
    | nil =>
      rw [getPathChars, List.append_nil, splitPathCore_no_sep a.data hns []]
      simp [hne]
    | cons b t =>
      rw [getPathChars, splitPathCore_flush a.data hns [] (b.data ++ getPathChars (t : List String))]
      have ihres := ih hrest
      rw [getPathChars, step] at ihres
      rw [ihres]
      simp [hne]

theorem splitPath_getPath {p : List String} (hv : ∀ s ∈ p, validSeg s) (hne : p ≠ []) :
    splitPath (getPath p) = p := by
  unfold splitPath
  rw [getPath_data hne]
  exact splitPathCore_getPathChars p fun s hs =>
    ⟨data_ne_nil (hv s hs).1, isValidName_iff.mp (hv s hs).2.2.2⟩

theorem getPath_ne_slash {p : List String} (hne : p ≠ []) (h : ∀ s ∈ p, s ≠ "") :
    getPath p ≠ "/" := by
  intro he
  cases p with
  | nil => exact hne rfl
  | cons a rest =>
    have hd : (getPath (a :: rest)).data = getPathChars (a :: rest) :=
      getPath_data (List.cons_ne_nil a rest)
    rw [he] at hd
    rw [getPathChars] at hd
    have : ([] : List Char) = a.data ++ getPathChars rest := by
      have := hd
      simpa using this
    have ha : a.data = [] := by
      cases he' : a.data with
      | nil => rfl
      | cons x xs => rw [he'] at this; simp at this
    exact data_ne_nil (h a (List.mem_cons_self a rest)) ha

theorem getPath_head {p : List String} (hne : p ≠ []) :
    (getPath p).data.head? = some '/' := by
  cases p with
  | nil => exact absurd rfl hne
  | cons a rest =>
    rw [getPath_data (List.cons_ne_nil a rest), getPathChars]
    rfl

theorem getPath_snoc (p : List String) (a : String) (h : p ≠ []) :
    getPath (p ++ [a]) = getPath p ++ "/" ++ a := by
  unfold getPath
  rw [List.reverse_append]
  cases hp : p.reverse with
  | nil => exact absurd (by simpa using hp) h
  | cons b t => simp [getPathRev]

theorem joinSlash_snoc (p : List String) (a : String) :
    joinSlash (p ++ [a]) = joinSlash p ++ "/" ++ a := by
  simp [joinSlash]

theorem getPath_eq_joinSlash : ∀ p : List String, p ≠ [] → getPath p = joinSlash p := by
  intro p
  induction p using List.reverseRecOn with
  | nil => intro h; exact absurd rfl h
  | append_singleton q a ih =>
    intro _
    cases hq : q with
    | nil => rfl
    | cons w t =>
      subst hq
      rw [getPath_snoc _ a (List.cons_ne_nil w t),
        joinSlash_snoc, ih (List.cons_ne_nil w t)]

/-! ## Helper lemmas: nodeAt and navigate -/

theorem nodeAt_append (p q : List String) :
    ∀ n : Node, nodeAt n (p ++ q) = (nodeAt n p).bind fun m => nodeAt m q := by
  induction p with
  | nil => intro n; simp [nodeAt]
  | cons s p ih =>
    intro n
    cases n with
    | file nm => simp [nodeAt]
    | dir nm ch =>
      cases h : lookupChild s ch with
      | none => simp [nodeAt, h]
      | some c => simp [nodeAt, h, ih c]

theorem nodeAt_cons_inv {m : Node} {s : String} {rest : List String} {n : Node}
    (h : nodeAt m (s :: rest) = some n) :
    ∃ nm ch c, m = Node.dir nm ch ∧ lookupChild s ch = some c ∧ nodeAt c rest = some n := by
  cases m with
  | file nm => simp [nodeAt] at h
  | dir nm ch =>
    cases hl : lookupChild s ch with
    | none => simp [nodeAt, hl] at h
    | some c =>
      simp only [nodeAt, hl] at h
      exact ⟨nm, ch, c, rfl, hl, h⟩

theorem isDir_of_nodeAt_dir {c : Node} {p : List String} {nm : String}
    {ch : List (String × Node)} (h : nodeAt c p = some (Node.dir nm ch)) :
    c.isDir = true := by
  cases p with
  | nil =>
    simp [nodeAt] at h
    subst h
    rfl
  | cons s rest =>
    obtain ⟨nm', ch', c', rfl, _, _⟩ := nodeAt_cons_inv h
    rfl

theorem nodeAt_dropLast_dir {root : Node} {p : List String} {n : Node}
    (h : nodeAt root p = some n) (hne : p ≠ []) :
    ∃ nm ch, nodeAt root p.dropLast = some (Node.dir nm ch) := by
  rcases List.eq_nil_or_concat p with rfl | ⟨q, a, rfl⟩
  · exact absurd rfl hne
  · rw [List.concat_eq_append] at h ⊢
    rw [nodeAt_append] at h
    cases hub : nodeAt root q with
    | none => rw [hub] at h; simp at h
    | some m =>
      rw [hub] at h
      simp only [Option.some_bind] at h
      obtain ⟨nm, ch, c, rfl, _, _⟩ := nodeAt_cons_inv h
      rw [List.dropLast_concat]
      exact ⟨nm, ch, hub⟩

theorem navigate_no_special {root : Node} :
    ∀ {parts cur out : List String},
      (∀ s ∈ cur, s ≠ ".." ∧ s ≠ ".") → navigate root parts cur = some out →
      ∀ s ∈ out, s ≠ ".." ∧ s ≠ "." := by
  intro parts
  induction parts with
  | nil =>
    intro cur out hcur h
    rw [navigate] at h
    obtain rfl : cur = out := by injection h
    exact hcur
  | cons part rest ih =>
    intro cur out hcur h
    rw [navigate] at h
    by_cases h1 : part = ".."
    · rw [if_pos h1] at h
      exact ih (fun s hs => hcur s (List.dropLast_subset _ hs)) h
    · rw [if_neg h1] at h
      by_cases h2 : part = "."
      · rw [if_pos h2] at h
        exact ih hcur h
      · rw [if_neg h2] at h
        cases hn : nodeAt root cur with
        | none => simp [hn] at h
        | some n =>
          cases n with
          | file nm => simp [hn] at h
          | dir nm ch =>
            simp only [hn] at h
            cases hl : lookupChild part ch with
            | none => simp [hl] at h
            | some child =>
              simp only [hl] at h
              by_cases hd : child.isDir = true
              · rw [if_pos hd] at h
                refine ih ?_ h
                intro s hs
                rcases List.mem_append.mp hs with hs | hs
                · exact hcur s hs
                · rw [List.mem_singleton.mp hs]
                  exact ⟨h1, h2⟩
              · rw [if_neg hd] at h
                cases h

theorem navigate_valid {root : Node} :
    ∀ {parts cur out : List String},
      (∀ s ∈ cur, validSeg s) →
      (∃ nm ch, nodeAt root cur = some (Node.dir nm ch)) →
      (∀ s ∈ parts, s ≠ "" ∧ isValidName s = true) →
      navigate root parts cur = some out →
      (∀ s ∈ out, validSeg s) ∧ (∃ nm ch, nodeAt root out = some (Node.dir nm ch)) := by
  intro parts
  induction parts with
  | nil =>
    intro cur out hcur hdir _ h
    rw [navigate] at h
    obtain rfl : cur = out := by injection h
    exact ⟨hcur, hdir⟩
  | cons part rest ih =>
    intro cur out hcur hdir hparts h
    obtain ⟨hpne, hpv⟩ := hparts part (List.mem_cons_self part rest)
    have hrestparts := fun s hs => hparts s (List.mem_cons_of_mem part hs)
    rw [navigate] at h
    by_cases h1 : part = ".."
    · rw [if_pos h1] at h
      refine ih (fun s hs => hcur s (List.dropLast_subset _ hs)) ?_ hrestparts h
      obtain ⟨nm, ch, hn⟩ := hdir
      by_cases hc : cur = []
      · subst hc
        exact ⟨nm, ch, hn⟩
      · exact nodeAt_dropLast_dir hn hc
    · rw [if_neg h1] at h
      by_cases h2 : part = "."
      · rw [if_pos h2] at h
        exact ih hcur hdir hrestparts h
      · rw [if_neg h2] at h
        obtain ⟨nm, ch, hn⟩ := hdir
        rw [hn] at h
        cases hl : lookupChild part ch with
        | none => simp [hl] at h
        | some child =>
          simp only [hl] at h
          by_cases hd : child.isDir = true
          · rw [if_pos hd] at h
            have hchild : nodeAt root (cur ++ [part]) = some child := by
              rw [nodeAt_append, hn]
              simp [nodeAt, hl]
            obtain ⟨nm', ch', rfl⟩ : ∃ nm' ch', child = Node.dir nm' ch' := by
              cases child with
              | file _ => cases hd
              | dir a b => exact ⟨a, b, rfl⟩
            refine ih ?_ ⟨nm', ch', hchild⟩ hrestparts h
            intro s hs
            rcases List.mem_append.mp hs with hs | hs
            · exact hcur s hs
            · rw [List.mem_singleton.mp hs]
              exact ⟨hpne, h2, h1, hpv⟩
          · rw [if_neg hd] at h
            cases h

theorem navigate_self {root : Node} :
    ∀ (parts q : List String) (nm : String) (ch : List (String × Node)),
      nodeAt root (q ++ parts) = some (Node.dir nm ch) →
      (∀ s ∈ parts, s ≠ ".." ∧ s ≠ ".") →
      navigate root parts q = some (q ++ parts) := by
  intro parts
  induction parts with
  | nil =>
    intro q nm ch _ _
    simp [navigate]
  | cons a rest ih =>
    intro q nm ch h hv
    obtain ⟨ha1, ha2⟩ := hv a (List.mem_cons_self a rest)
    rw [navigate, if_neg ha1, if_neg ha2]
    rw [nodeAt_append] at h
    cases hq : nodeAt root q with
    | none => rw [hq] at h; simp at h
    | some m =>
      rw [hq] at h
      simp only [Option.some_bind] at h
      obtain ⟨nm₀, ch₀, c, rfl, hl, hrest⟩ := nodeAt_cons_inv h
      have hcd : c.isDir = true := isDir_of_nodeAt_dir hrest
      simp only [hq, hl, hcd, if_true]
      have hqa : nodeAt root (q ++ [a]) = some c := by
        rw [nodeAt_append, hq]
        simp [nodeAt, hl]
      have hfull : nodeAt root ((q ++ [a]) ++ rest) = some (Node.dir nm ch) := by
        rw [nodeAt_append, hqa]
        simpa using hrest
      have := ih (q ++ [a]) nm ch hfull (fun s hs => hv s (List.mem_cons_of_mem a hs))
      rw [List.append_assoc] at this
      simpa using this

/-! ## Helper lemmas: updateAt and the tree invariant -/

theorem updateAt_name (p : List String) (f : List (String × Node) → List (String × Node)) :
    ∀ n : Node, (updateAt p f n).name = n.name := by
  intro n
  cases p <;> cases n <;> rfl

theorem updateAt_dir (p : List String) (f : List (String × Node) → List (String × Node))
    (nm : String) (ch : List (String × Node)) :
    ∃ ch', updateAt p f (Node.dir nm ch) = Node.dir nm ch' := by
  cases p <;> exact ⟨_, rfl⟩

theorem lookupChild_map_update (s : String) (rest : List String)
    (f : List (String × Node) → List (String × Node)) :
    ∀ ch : List (String × Node),
      lookupChild s (ch.map fun kv => if kv.1 = s then (kv.1, updateAt rest f kv.2) else kv) =
        (lookupChild s ch).map (updateAt rest f) := by
  intro ch
  induction ch with
  | nil => rfl
  | cons kv t ih =>
    by_cases h : kv.1 = s
    · simp [lookupChild, h]
    · simp [lookupChild, h, ih]

theorem nodeAt_updateAt :
    ∀ (p : List String) (root : Node) (nm : String) (ch : List (String × Node))
      (f : List (String × Node) → List (String × Node)),
      nodeAt root p = some (Node.dir nm ch) →
      nodeAt (updateAt p f root) p = some (Node.dir nm (f ch)) := by
  intro p
  induction p with
  | nil =>
    intro root nm ch f h
    simp only [nodeAt] at h
    obtain rfl : root = Node.dir nm ch := by injection h
    rfl
  | cons s rest ih =>
    intro root nm ch f h
    obtain ⟨nm₀, ch₀, c, rfl, hl, hrest⟩ := nodeAt_cons_inv h
    rw [updateAt]
    simp only [nodeAt, lookupChild_map_update, hl, Option.map_some']
    exact ih c nm ch f hrest

theorem treeInv_dir_inv {nm : String} {ch : List (String × Node)}
    (h : TreeInv (Node.dir nm ch)) :
    ((ch.map Prod.fst).Pairwise (· < ·)) ∧
      (∀ kv ∈ ch, (kv : String × Node).2.name = kv.1) ∧
      (∀ kv ∈ ch, isValidName (kv : String × Node).1 = true) ∧
      (∀ kv ∈ ch, TreeInv (kv : String × Node).2) := by
  cases h with
  | dir _ _ sorted named valid sub => exact ⟨sorted, named, valid, sub⟩

theorem treeInv_nodeAt :
    ∀ (p : List String) (n m : Node), TreeInv n → nodeAt n p = some m → TreeInv m := by
  intro p
  induction p with
  | nil =>
    intro n m hn h
    simp only [nodeAt] at h
    obtain rfl : n = m := by injection h
    exact hn
  | cons s rest ih =>
    intro n m hn h
    obtain ⟨nm, ch, c, rfl, hl, hrest⟩ := nodeAt_cons_inv h
    exact ih c m ((treeInv_dir_inv hn).2.2.2 _ (lookupChild_mem hl)) hrest

theorem treeInv_dir_insert {nm nm' : String} {ch : List (String × Node)} {c' : Node}
    (h : TreeInv (Node.dir nm ch)) (hvn : isValidName nm' = true)
    (hnm : c'.name = nm') (hc : TreeInv c') :
    TreeInv (Node.dir nm (insertChild nm' c' ch)) := by
  obtain ⟨sorted, named, valid, sub⟩ := treeInv_dir_inv h
  refine TreeInv.dir nm _ (pairwise_insertChild sorted) ?_ ?_ ?_
  · intro kv hkv
    rcases mem_insertChild hkv with rfl | hkv
    · exact hnm
    · exact named kv hkv
  · intro kv hkv
    rcases mem_insertChild hkv with rfl | hkv
    · exact hvn
    · exact valid kv hkv
  · intro kv hkv
    rcases mem_insertChild hkv with rfl | hkv
    · exact hc
    · exact sub kv hkv

theorem treeInv_updateAt_insert (nm' : String) (c' : Node)
    (hvn : isValidName nm' = true) (hnm : c'.name = nm') (hc : TreeInv c') :
    ∀ (p : List String) (root : Node), TreeInv root →
      TreeInv (updateAt p (insertChild nm' c') root) := by
  intro p
  induction p with
  | nil =>
    intro root hroot
    cases root with
    | file nm => exact hroot
    | dir nm ch => exact treeInv_dir_insert hroot hvn hnm hc
  | cons s rest ih =>
    intro root hroot
    cases root with
    | file nm => exact hroot
    | dir nm ch =>
      obtain ⟨sorted, named, valid, sub⟩ := treeInv_dir_inv hroot
      rw [updateAt]
      refine TreeInv.dir nm _ ?_ ?_ ?_ ?_
      · have hkeys :
            (ch.map fun kv =>
                if kv.1 = s then (kv.1, updateAt rest (insertChild nm' c') kv.2) else kv).map
                Prod.fst = ch.map Prod.fst := by
          rw [List.map_map]
          refine List.map_congr_left ?_
          intro kv _
          by_cases hs : kv.1 = s <;> simp [hs]
        rw [hkeys]
        exact sorted
      · intro kv hkv
        rcases List.mem_map.mp hkv with ⟨kv₀, hkv₀, rfl⟩
        by_cases hs : kv₀.1 = s
        · simp only [if_pos hs, updateAt_name]
          exact named kv₀ hkv₀
        · simp only [if_neg hs]
          exact named kv₀ hkv₀
      · intro kv hkv
        rcases List.mem_map.mp hkv with ⟨kv₀, hkv₀, rfl⟩
        by_cases hs : kv₀.1 = s
        · simp only [if_pos hs]
          exact valid kv₀ hkv₀
        · simp only [if_neg hs]
          exact valid kv₀ hkv₀
      · intro kv hkv
        rcases List.mem_map.mp hkv with ⟨kv₀, hkv₀, rfl⟩
        by_cases hs : kv₀.1 = s
        · simp only [if_pos hs]
          exact ih kv₀.2 (sub kv₀ hkv₀)
        · simp only [if_neg hs]
          exact sub kv₀ hkv₀

/-! ## Helper lemmas: segments produced by splitPath; invariant preservation -/

theorem emitted_seg_ok {acc : List Char} (hacc : ∀ c ∈ acc, c ≠ '/')
    (hne : ¬ acc.isEmpty = true) :
    (⟨acc.reverse⟩ : String) ≠ "" ∧ isValidName ⟨acc.reverse⟩ = true := by
  constructor
  · intro h0
    have hd : acc.reverse = [] := congrArg String.data h0
    rw [List.reverse_eq_nil_iff] at hd
    subst hd
    exact hne rfl
  · rw [isValidName_iff]
    intro hm
    exact hacc _ (List.mem_reverse.mp hm) rfl

theorem splitPathCore_parts :
    ∀ (cs acc : List Char), (∀ c ∈ acc, c ≠ '/') →
      ∀ s ∈ splitPathCore cs acc, s ≠ "" ∧ isValidName s = true := by
  intro cs
  induction cs with
  | nil =>
    intro acc hacc s hs
    rw [splitPathCore] at hs
    by_cases he : acc.isEmpty = true
    · rw [if_pos he] at hs
      cases hs
    · rw [if_neg he] at hs
      rw [List.mem_singleton] at hs
      subst hs
      exact emitted_seg_ok hacc he
  | cons c cs ih =>
    intro acc hacc s hs
    rw [splitPathCore] at hs
    by_cases hc : c = '/'
    · rw [if_pos hc] at hs
      rcases List.mem_append.mp hs with hs | hs
      · by_cases he : acc.isEmpty = true
        · rw [if_pos he] at hs
          cases hs
        · rw [if_neg he] at hs
          rw [List.mem_singleton] at hs
          subst hs
          exact emitted_seg_ok hacc he
      · exact ih [] (fun x hx => absurd hx (List.not_mem_nil x)) s hs
    · rw [if_neg hc] at hs
      refine ih (c :: acc) ?_ s hs
      intro x hx
      rcases List.mem_cons.mp hx with rfl | hx
      · exact hc
      · exact hacc x hx

theorem splitPath_parts (path : String) :
    ∀ s ∈ splitPath path, s ≠ "" ∧ isValidName s = true :=
  splitPathCore_parts path.data [] fun c hc => absurd hc (List.not_mem_nil c)

theorem fsInv_init : FsInv initFS := by
  refine ⟨?_, ⟨[], rfl⟩, ⟨"/", [], rfl⟩, ?_⟩
  · exact TreeInv.dir "/" [] List.Pairwise.nil
      (fun kv h => absurd h (List.not_mem_nil kv))
      (fun kv h => absurd h (List.not_mem_nil kv))
      (fun kv h => absurd h (List.not_mem_nil kv))
  · intro s hs
    cases hs

theorem fsInv_mkdir (fs : FS) (name : String) (h : FsInv fs) : FsInv (fs.mkdir name).1 := by
  obtain ⟨htree, ⟨rch, hroot⟩, ⟨nm, ch, hcur⟩, hsegs⟩ := h
  rw [FS.mkdir]
  by_cases h1 : isValidName name = true
  · rw [if_neg (fun hh => hh h1)]
    by_cases h2 : fs.nameExists name = true
    · rw [if_pos h2]
      exact ⟨htree, ⟨rch, hroot⟩, ⟨nm, ch, hcur⟩, hsegs⟩
    · rw [if_neg h2]
      dsimp only
      refine ⟨?_, ?_, ?_, hsegs⟩
      · exact treeInv_updateAt_insert name (Node.dir name []) h1 rfl
          (TreeInv.dir name [] List.Pairwise.nil
            (fun kv hh => absurd hh (List.not_mem_nil kv))
            (fun kv hh => absurd hh (List.not_mem_nil kv))
            (fun kv hh => absurd hh (List.not_mem_nil kv)))
          fs.cwd fs.root htree
      · obtain ⟨ch', he⟩ :=
          updateAt_dir fs.cwd (insertChild name (Node.dir name [])) "/" rch
        exact ⟨ch', by rw [hroot, he]⟩
      · exact ⟨nm, insertChild name (Node.dir name []) ch,
          nodeAt_updateAt fs.cwd fs.root nm ch _ hcur⟩
  · rw [if_pos h1]
    exact ⟨htree, ⟨rch, hroot⟩, ⟨nm, ch, hcur⟩, hsegs⟩

theorem fsInv_touch (fs : FS) (name : String) (h : FsInv fs) : FsInv (fs.touch name).1 := by
  obtain ⟨htree, ⟨rch, hroot⟩, ⟨nm, ch, hcur⟩, hsegs⟩ := h
  rw [FS.touch]
  by_cases h1 : isValidName name = true
  · rw [if_neg (fun hh => hh h1)]
    by_cases h2 : fs.nameExists name = true
    · rw [if_pos h2]
      exact ⟨htree, ⟨rch, hroot⟩, ⟨nm, ch, hcur⟩, hsegs⟩
    · rw [if_neg h2]
      dsimp only
      refine ⟨?_, ?_, ?_, hsegs⟩
      · exact treeInv_updateAt_insert name (Node.file name) h1 rfl (TreeInv.file name)
          fs.cwd fs.root htree
      · obtain ⟨ch', he⟩ :=
          updateAt_dir fs.cwd (insertChild name (Node.file name)) "/" rch
        exact ⟨ch', by rw [hroot, he]⟩
      · exact ⟨nm, insertChild name (Node.file name) ch,
          nodeAt_updateAt fs.cwd fs.root nm ch _ hcur⟩
  · rw [if_pos h1]
    exact ⟨htree, ⟨rch, hroot⟩, ⟨nm, ch, hcur⟩, hsegs⟩

theorem fsInv_cd (fs : FS) (path : String) (h : FsInv fs) : FsInv (fs.cd path).1 := by
  obtain ⟨htree, ⟨rch, hroot⟩, hcur, hsegs⟩ := h
  rw [FS.cd]
  by_cases hp : path = "/"
  · rw [if_pos hp]
    dsimp only
    refine ⟨htree, ⟨rch, hroot⟩, ⟨"/", rch, by rw [hroot]; rfl⟩, ?_⟩
    intro s hs
    cases hs
  · rw [if_neg hp]
    cases hnav : navigate fs.root (splitPath path)
        (if path.data.head? = some '/' then [] else fs.cwd) with
    | none =>
      dsimp only
      exact ⟨htree, ⟨rch, hroot⟩, hcur, hsegs⟩
    | some out =>
      dsimp only
      have hstartv :
          (∀ s ∈ (if path.data.head? = some '/' then ([] : List String) else fs.cwd),
            validSeg s) ∧
          ∃ nm ch, nodeAt fs.root
              (if path.data.head? = some '/' then ([] : List String) else fs.cwd) =
            some (Node.dir nm ch) := by
        by_cases hh : path.data.head? = some '/'
        · rw [if_pos hh]
          exact ⟨fun s hs => absurd hs (List.not_mem_nil s), ⟨"/", rch, by rw [hroot]; rfl⟩⟩
        · rw [if_neg hh]
          exact ⟨hsegs, hcur⟩
      have hv := navigate_valid hstartv.1 hstartv.2 (splitPath_parts path) hnav
      exact ⟨htree, ⟨rch, hroot⟩, hv.2, hv.1⟩

theorem reachable_inv : ∀ {fs : FS}, Reachable fs → FsInv fs := by
  intro fs h
  induction h with
  | init => exact fsInv_init
  | mkdir fs name _ ih => exact fsInv_mkdir fs name ih
  | touch fs name _ ih => exact fsInv_touch fs name ih
  | cd fs path _ ih => exact fsInv_cd fs path ih

/-! ## The find refinement -/

mutual
theorem findHelper_eq (target : String) (n : Node) (p : List String) :
    findHelper target n p =
      ((preorder n p).filter fun x => x.1.name == target).map fun x => getPath x.2 := by
  cases n with
  | file nm =>
    simp only [findHelper, preorder]
    by_cases h : nm = target
    · subst h
      simp [Node.name, List.filter]
    · have hb : (nm == target) = false := beq_eq_false_iff_ne.mpr h
      simp [Node.name, h, hb, List.filter]
  | dir nm ch =>
    have hch := childrenFind_eq target ch p
    simp only [findHelper, preorder]
    rw [hch]
    by_cases h : nm = target
    · subst h
      simp [Node.name, List.filter_cons]
    · have hb : (nm == target) = false := beq_eq_false_iff_ne.mpr h
      simp [Node.name, h, hb, List.filter_cons]

theorem childrenFind_eq (target : String) (ch : List (String × Node)) (p : List String) :
    childrenFind target ch p =
      ((preorderChildren ch p).filter fun x => x.1.name == target).map fun x => getPath x.2 := by
  cases ch with
  | nil => simp [childrenFind, preorderChildren]
  | cons kv rest =>
    rw [childrenFind, preorderChildren,
      findHelper_eq target kv.2 (p ++ [kv.2.name]), childrenFind_eq target rest p,
      List.filter_append, List.map_append]
end

/-! ## Claims -/

/-- C1 (counterexample): the claim says `createDirectory("")` and
`createFile("")` return `InvalidName`; in the code `isValidName` only
rejects names containing `/`, so on a fresh file system the empty name is
accepted by both operations (no error at all). -/
theorem claim_C1_cex :
    ¬ ((FS.mkdir initFS "").2 = some FsError.invalidName) ∧
    ¬ ((FS.touch initFS "").2 = some FsError.invalidName) := by
  constructor
  · intro h
    rw [show (FS.mkdir initFS "").2 = none from rfl] at h
    cases h
  · intro h
    rw [show (FS.touch initFS "").2 = none from rfl] at h
    cases h

/-- C1 (amended): `createDirectory(name)` and `createFile(name)` fail with
`InvalidName` if and only if `name` contains the separator `/`; the empty
string is not rejected.  On `InvalidName` the state (hence the cursor's
children mapping) is unchanged. -/
theorem claim_C1_amended (fs : FS) (name : String) :
    ((fs.mkdir name).2 = some FsError.invalidName ↔ '/' ∈ name.data) ∧
    ((fs.touch name).2 = some FsError.invalidName ↔ '/' ∈ name.data) ∧
    ('/' ∈ name.data →
      fs.mkdir name = (fs, some FsError.invalidName) ∧
      fs.touch name = (fs, some FsError.invalidName)) := by
  by_cases h : isValidName name = true
  · have hmem : '/' ∉ name.data := isValidName_iff.mp h
    have hnot : ¬ ¬ isValidName name = true := fun hh => hh h
    refine ⟨?_, ?_, fun hm => absurd hm hmem⟩
    · rw [FS.mkdir, if_neg hnot]
      by_cases h2 : fs.nameExists name = true
      · rw [if_pos h2]
        simp [hmem]
      · rw [if_neg h2]
        simp [hmem]
    · rw [FS.touch, if_neg hnot]
      by_cases h2 : fs.nameExists name = true
      · rw [if_pos h2]
        simp [hmem]
      · rw [if_neg h2]
        simp [hmem]
  · have hmem : '/' ∈ name.data := by
      by_contra hm
      exact h (isValidName_iff.mpr hm)
    refine ⟨?_, ?_, fun _ => ?_⟩
    · rw [FS.mkdir, if_pos h]
      simp [hmem]
    · rw [FS.touch, if_pos h]
      simp [hmem]
    · exact ⟨by rw [FS.mkdir, if_pos h], by rw [FS.touch, if_pos h]⟩

/-- C1 (witness): at the concrete input `"a/b"`, which contains the
separator, `createDirectory` fails with `InvalidName` and leaves the state
unchanged. -/
theorem claim_C1_witness :
    '/' ∈ ("a/b" : String).data ∧
    FS.mkdir initFS "a/b" = (initFS, some FsError.invalidName) :=
  ⟨by decide, ((claim_C1_amended initFS "a/b").2.2 (by decide)).1⟩

/-- C2: `find(name)` returns exactly the absolute paths of the nodes whose
name equals the argument (case-sensitive full-string comparison), in
depth-first pre-order from the root with children in ascending key order
(`findSpec` is that specification, written as pre-order enumeration,
filter, and path rendering); the root is eligible, so `find("/")` contains
`"/"`; when nothing matches the result is the empty sequence, not an
error. -/
theorem claim_C2 (fs : FS) :
    (∀ target, fs.find target = findSpec fs target) ∧
    (fs.root.name = "/" → "/" ∈ fs.find "/") ∧
    (∀ target, (∀ x ∈ preorder fs.root [], ¬ (x : Node × List String).1.name = target) →
      fs.find target = []) := by
  refine ⟨?_, ?_, ?_⟩
  · intro target
    exact findHelper_eq target fs.root []
  · intro h
    rw [FS.find]
    cases hr : fs.root with
    | file nm =>
      rw [hr] at h
      simp only [Node.name] at h
      subst h
      simp [findHelper, Node.name, getPath, getPathRev]
    | dir nm ch =>
      rw [hr] at h
      simp only [Node.name] at h
      subst h
      rw [findHelper]
      simp [Node.name, getPath, getPathRev]
  · intro target hnone
    rw [FS.find, findHelper_eq]
    have hfilter : (preorder fs.root []).filter (fun x => x.1.name == target) = [] := by
      rw [List.filter_eq_nil_iff]
      intro x hx
      simp only [beq_iff_eq]
      exact hnone x hx
    rw [hfilter]
    rfl

/-- C2 (witness): on the fresh file system, `find("/")` contains `"/"`. -/
theorem claim_C2_witness : "/" ∈ initFS.find "/" :=
  (claim_C2 initFS).2.1 rfl

/-- C3: whenever `changeDirectory` reports an error the error is
`InvalidPath` and the state (in particular the cursor) is exactly the
pre-call state; whenever segment resolution fails (`navigateToPath`
returns null) the whole call fails with `InvalidPath`; and concretely,
after `createFile("a.txt")`, `changeDirectory("a.txt")` returns
`InvalidPath` with the cursor unchanged. -/
theorem claim_C3 :
    (∀ (fs : FS) (path : String) (e : FsError),
      (fs.cd path).2 = some e → (fs.cd path).1 = fs ∧ e = FsError.invalidPath) ∧
    (∀ (fs : FS) (path : String),
      path ≠ "/" →
      navigate fs.root (splitPath path)
          (if path.data.head? = some '/' then [] else fs.cwd) = none →
      fs.cd path = (fs, some FsError.invalidPath)) ∧
    FS.cd (FS.touch initFS "a.txt").1 "a.txt" =
      ((FS.touch initFS "a.txt").1, some FsError.invalidPath) := by
  refine ⟨?_, ?_, by rfl⟩
  · intro fs path e h
    rw [FS.cd] at h ⊢
    by_cases hp : path = "/"
    · rw [if_pos hp] at h
      cases h
    · rw [if_neg hp] at h ⊢
      cases hnav : navigate fs.root (splitPath path)
          (if path.data.head? = some '/' then [] else fs.cwd) with
      | some out => simp [hnav] at h
      | none =>
        simp only [hnav] at h ⊢
        injection h with h'
        exact ⟨by trivial, h'.symm⟩
  · intro fs path hp hnav
    rw [FS.cd, if_neg hp]
    simp only [hnav]

/-- C3 (witness): `changeDirectory("nope")` on the fresh file system fails
and leaves the cursor unchanged. -/
theorem claim_C3_witness :
    (FS.cd initFS "nope").1 = initFS ∧ FsError.invalidPath = FsError.invalidPath :=
  claim_C3.1 initFS "nope" FsError.invalidPath rfl

/-- C4: `currentPath()` is `"/"` at the root and otherwise the
concatenation of a `/` followed by each name from root down to the cursor
(`joinSlash`), with no trailing separator; and on a fresh tree
`createDirectory("home")`, `changeDirectory("home")`, `currentPath()`
yields `"/home"`. -/
theorem claim_C4 :
    getPath [] = "/" ∧
    (∀ p : List String, p ≠ [] → getPath p = joinSlash p) ∧
    (FS.cd (FS.mkdir initFS "home").1 "home").1.pwd = "/home" := by
  exact ⟨rfl, getPath_eq_joinSlash, by rfl⟩

/-- C4 (witness): the refinement at the concrete path `["a", "b"]`, whose
rendering is `/a/b`. -/
theorem claim_C4_witness : getPath ["a", "b"] = joinSlash ["a", "b"] :=
  claim_C4.2.1 ["a", "b"] (by decide)

/-- C5: in every reachable state `list()` returns the cursor's children as
(name, kind) pairs whose names are strictly ascending in the string order
(byte-wise lexicographic, which for UTF-8 data coincides with Lean's
`String` order), hence pairwise distinct; an empty directory yields the
empty sequence, and `list()` has no error outcome (it is total by type). -/
theorem claim_C5 (fs : FS) (h : Reachable fs) :
    ((fs.ls.map Prod.fst).Pairwise (· < ·)) ∧
    (fs.ls.map Prod.fst).Nodup ∧
    (fs.childrenAt = [] → fs.ls = []) := by
  obtain ⟨htree, _, ⟨nm, ch, hcur⟩, _⟩ := reachable_inv h
  have hch : fs.childrenAt = ch := by rw [FS.childrenAt, hcur]
  have hinv := treeInv_nodeAt fs.cwd fs.root _ htree hcur
  obtain ⟨sorted, _, _, _⟩ := treeInv_dir_inv hinv
  have hmap : fs.ls.map Prod.fst = ch.map Prod.fst := by
    rw [FS.ls, hch, List.map_map]
    rfl
  refine ⟨?_, ?_, ?_⟩
  · rw [hmap]
    exact sorted
  · rw [hmap]
    exact List.Pairwise.imp (fun hlt => ne_of_lt hlt) sorted
  · intro he
    rw [FS.ls, he]
    rfl

/-- C5 (witness): the reachable state after `createDirectory("x")` lists
the single name `x`, sorted and duplicate-free. -/
theorem claim_C5_witness :
    (((FS.mkdir initFS "x").1.ls.map Prod.fst).Pairwise (· < ·)) ∧
    ((FS.mkdir initFS "x").1.ls.map Prod.fst).Nodup ∧
    ((FS.mkdir initFS "x").1.childrenAt = [] → (FS.mkdir initFS "x").1.ls = []) :=
  claim_C5 (FS.mkdir initFS "x").1 (Reachable.mkdir initFS "x" Reachable.init)

/-- C6: in every reachable state, if the cursor's children already contain
the key `name` then both create operations fail with `AlreadyExists` and
return the state unchanged (no overwrite); concretely, the second
`createDirectory("x")` fails with `AlreadyExists` and `list()` shows `x`
exactly once. -/
theorem claim_C6 :
    (∀ (fs : FS) (name : String) (c : Node), Reachable fs →
      lookupChild name fs.childrenAt = some c →
      fs.mkdir name = (fs, some FsError.alreadyExists) ∧
      fs.touch name = (fs, some FsError.alreadyExists)) ∧
    FS.mkdir (FS.mkdir initFS "x").1 "x" =
      ((FS.mkdir initFS "x").1, some FsError.alreadyExists) ∧
    ((FS.mkdir (FS.mkdir initFS "x").1 "x").1.ls.map Prod.fst = ["x"]) := by
  refine ⟨?_, by rfl, by rfl⟩
  intro fs name c hr hl
  obtain ⟨htree, _, ⟨nm, ch, hcur⟩, _⟩ := reachable_inv hr
  have hch : fs.childrenAt = ch := by rw [FS.childrenAt, hcur]
  have hinv := treeInv_nodeAt fs.cwd fs.root _ htree hcur
  obtain ⟨_, _, valid, _⟩ := treeInv_dir_inv hinv
  rw [hch] at hl
  have hvn : isValidName name = true := valid _ (lookupChild_mem hl)
  have hex : fs.nameExists name = true := by
    rw [FS.nameExists, hch, hl]
    rfl
  constructor
  · rw [FS.mkdir, if_neg (fun hh => hh hvn), if_pos hex]
  · rw [FS.touch, if_neg (fun hh => hh hvn), if_pos hex]

/-- C6 (witness): concretely, with `x` already present, both create
operations report `AlreadyExists` and change nothing. -/
theorem claim_C6_witness :
    FS.mkdir (FS.mkdir initFS "x").1 "x" =
      ((FS.mkdir initFS "x").1, some FsError.alreadyExists) ∧
    FS.touch (FS.mkdir initFS "x").1 "x" =
      ((FS.mkdir initFS "x").1, some FsError.alreadyExists) :=
  claim_C6.1 (FS.mkdir initFS "x").1 "x" (Node.dir "x" [])
    (Reachable.mkdir initFS "x" Reachable.init) rfl

/-- C7: a `..` segment at the root clamps silently: resolution continues
from the root (never an error), and with the cursor at root,
`changeDirectory("..")` succeeds and leaves the cursor at root. -/
theorem claim_C7 :
    (∀ (root : Node) (rest : List String),
      navigate root (".." :: rest) [] = navigate root rest []) ∧
    (∀ fs : FS, fs.cwd = [] → fs.cd ".." = (fs, none)) := by
  constructor
  · intro root rest
    rw [navigate, if_pos rfl]
    rfl
  · intro fs hc
    obtain ⟨root, cwd⟩ := fs
    obtain rfl : cwd = [] := hc
    rw [FS.cd, if_neg (by decide)]
    rw [show splitPath ".." = [".."] from rfl]
    rw [if_neg (by decide : ¬ ((".." : String).data.head? = some '/'))]
    rw [navigate, if_pos rfl]
    rfl

/-- C7 (witness): on the fresh file system (cursor at root),
`changeDirectory("..")` succeeds as a no-op. -/
theorem claim_C7_witness : FS.cd initFS ".." = (initFS, none) :=
  claim_C7.2 initFS rfl

/-- C8: in every reachable state `changeDirectory(currentPath())` succeeds
and returns the state unchanged (the cursor does not move), whether the
cursor is the root or a nested directory. -/
theorem claim_C8 (fs : FS) (h : Reachable fs) : fs.cd fs.pwd = (fs, none) := by
  obtain ⟨htree, hroot, ⟨nm, ch, hcur⟩, hsegs⟩ := reachable_inv h
  obtain ⟨root, cwd⟩ := fs
  by_cases hc : cwd = []
  · subst hc
    have hp : FS.pwd (FS.mk root []) = "/" := rfl
    rw [hp, FS.cd, if_pos rfl]
  · have hne : FS.pwd (FS.mk root cwd) ≠ "/" :=
      getPath_ne_slash hc fun s hs => (hsegs s hs).1
    rw [FS.cd, if_neg hne]
    have hhead : (FS.pwd (FS.mk root cwd)).data.head? = some '/' := getPath_head hc
    rw [if_pos hhead]
    have hsplit : splitPath (FS.pwd (FS.mk root cwd)) = cwd :=
      splitPath_getPath hsegs hc
    rw [hsplit]
    have hnav : navigate root cwd [] = some ([] ++ cwd) :=
      navigate_self cwd [] nm ch (by simpa using hcur)
        (fun s hs => ⟨(hsegs s hs).2.2.1, (hsegs s hs).2.1⟩)
    rw [List.nil_append] at hnav
    rw [hnav]

/-- C8 (witness): on the fresh file system, `changeDirectory("/")` (which
is `currentPath()` there) succeeds and changes nothing. -/
theorem claim_C8_witness : FS.cd initFS initFS.pwd = (initFS, none) :=
  claim_C8 initFS Reachable.init

/-- C9: in every reachable state — the initial one, and after any sequence
of operations, successful or failed — the cursor refers to a live
Directory node reachable from the root (never a File, never dangling). -/
theorem claim_C9 (fs : FS) (h : Reachable fs) :
    ∃ nm ch, nodeAt fs.root fs.cwd = some (Node.dir nm ch) :=
  (reachable_inv h).2.2.1

/-- C9 (witness): the invariant at the initial state. -/
theorem claim_C9_witness :
    ∃ nm ch, nodeAt initFS.root initFS.cwd = some (Node.dir nm ch) :=
  claim_C9 initFS Reachable.init

/-- C10: when `..` is not yet a key of the cursor's children,
`createDirectory("..")` succeeds (the name passes validation) and inserts
a directory child literally named `..`; a subsequent
`changeDirectory("..")` nevertheless moves the cursor to its parent
(clamped at root), which is never the newly created child; and no
successful navigation from the cursor can produce a cursor path containing
a `..` (or `.`) segment, so such a child is unreachable by path
navigation. -/
theorem claim_C10 (fs : FS) (h : Reachable fs)
    (hnone : lookupChild ".." fs.childrenAt = none) :
    (fs.mkdir "..").2 = none ∧
    (fs.mkdir "..").1.cwd = fs.cwd ∧
    nodeAt (fs.mkdir "..").1.root (fs.cwd ++ [".."]) = some (Node.dir ".." []) ∧
    (fs.mkdir "..").1.cd ".." = (FS.mk (fs.mkdir "..").1.root fs.cwd.dropLast, none) ∧
    fs.cwd.dropLast ≠ fs.cwd ++ [".."] ∧
    (∀ parts out,
      navigate (fs.mkdir "..").1.root parts (fs.mkdir "..").1.cwd = some out →
      ".." ∉ out ∧ "." ∉ out) := by
  obtain ⟨htree, _, ⟨nm, ch, hcur⟩, hsegs⟩ := reachable_inv h
  have hvn : isValidName ".." = true := by decide
  have hex : FS.nameExists fs ".." = false := by
    rw [FS.nameExists, hnone]
    rfl
  have hmk : fs.mkdir ".." =
      (FS.mk (updateAt fs.cwd (insertChild ".." (Node.dir ".." [])) fs.root) fs.cwd,
        none) := by
    rw [FS.mkdir, if_neg (fun hh => hh hvn),
      if_neg (by rw [hex]; exact Bool.false_ne_true)]
  refine ⟨by rw [hmk], by rw [hmk], ?_, ?_, ?_, ?_⟩
  · rw [hmk]
    dsimp only
    have hupd := nodeAt_updateAt fs.cwd fs.root nm ch
      (insertChild ".." (Node.dir ".." [])) hcur
    rw [nodeAt_append, hupd]
    simp only [Option.some_bind]
    simp [nodeAt, lookupChild_insert_self]
  · rw [hmk]
    dsimp only
    rw [FS.cd, if_neg (by decide)]
    rw [show splitPath ".." = [".."] from rfl]
    rw [if_neg (by decide : ¬ ((".." : String).data.head? = some '/'))]
    rw [navigate, if_pos rfl]
    rfl
  · intro he
    have hlen := congrArg List.length he
    rw [List.length_append, List.length_dropLast] at hlen
    simp at hlen
  · intro parts out hnav
    have hcwd : (fs.mkdir "..").1.cwd = fs.cwd := by rw [hmk]
    rw [hcwd] at hnav
    have hs := navigate_no_special
      (fun s hs => ⟨(hsegs s hs).2.2.1, (hsegs s hs).2.1⟩) hnav
    exact ⟨fun hm => (hs _ hm).1 rfl, fun hm => (hs _ hm).2 rfl⟩

/-- C10 (witness): at the fresh file system, `createDirectory("..")`
succeeds, the new child sits at path `/..`, and `changeDirectory("..")`
stays at the root rather than entering it. -/
theorem claim_C10_witness :
    (initFS.mkdir "..").2 = none ∧
    (initFS.mkdir "..").1.cwd = initFS.cwd ∧
    nodeAt (initFS.mkdir "..").1.root (initFS.cwd ++ [".."]) =
      some (Node.dir ".." []) ∧
    (initFS.mkdir "..").1.cd ".." =
      (FS.mk (initFS.mkdir "..").1.root initFS.cwd.dropLast, none) ∧
    initFS.cwd.dropLast ≠ initFS.cwd ++ [".."] ∧
    (∀ parts out,
      navigate (initFS.mkdir "..").1.root parts (initFS.mkdir "..").1.cwd = some out →
      ".." ∉ out ∧ "." ∉ out) :=
  claim_C10 initFS Reachable.init rfl
